import Mathlib

/-!
Verification of the voidui version-reconciliation core: lock-file store,
checksum-based drift detection, three-way merge and version-range changelog
extraction.  Each definition shallowly embeds the corresponding TypeScript
function; theorems settle the spec's testable properties against them.
-/

set_option maxRecDepth 10000

/-! ## Checksum utilities (packages/cli/src/utils/checksum.ts) -/

/-- One left-to-right, non-overlapping pass replacing every CRLF pair by LF,
exactly the semantics of the JavaScript call `content.replace(/\r\n/g, "\n")`
on line 19 of checksum.ts. -/
def normCRLF : List Char → List Char
  | [] => []
  | [a] => [a]
  | a :: b :: rest =>
    if a = '\r' ∧ b = '\n' then '\n' :: normCRLF rest
    else a :: normCRLF (b :: rest)

/-- String-level CRLF-to-LF rewriting, `s.replace(/\r\n/g, "\n")`. -/
def replaceCRLF (s : String) : String := String.mk (normCRLF s.data)

/-- UTF-8 encoding of a single Unicode scalar value (byte values as `Nat`). -/
def utf8Bytes (c : Char) : List Nat :=
  let n := c.toNat
  if n < 128 then [n]
  else if n < 2048 then [192 + n / 64, 128 + n % 64]
  else if n < 65536 then [224 + n / 4096, 128 + n / 64 % 64, 128 + n % 64]
  else [240 + n / 262144, 128 + n / 4096 % 64, 128 + n / 64 % 64, 128 + n % 64]

/-- UTF-8 encoding of a text, as the list of its bytes. -/
def utf8Encode (l : List Char) : List Nat := l.flatMap utf8Bytes

/-- Truncation to 32 bits. -/
def w32 (n : Nat) : Nat := n % 4294967296

/-- Right rotation of a 32-bit word by `n` places. -/
def rotr32 (n x : Nat) : Nat := w32 (Nat.lor (x >>> n) (x <<< (32 - n)))

/-- SHA-256 choice function. -/
def shaCh (x y z : Nat) : Nat := Nat.xor (Nat.land x y) (Nat.land (Nat.xor x 4294967295) z)

/-- SHA-256 majority function. -/
def shaMaj (x y z : Nat) : Nat :=
  Nat.xor (Nat.xor (Nat.land x y) (Nat.land x z)) (Nat.land y z)

/-- SHA-256 big sigma-0. -/
def bigSigma0 (x : Nat) : Nat := Nat.xor (Nat.xor (rotr32 2 x) (rotr32 13 x)) (rotr32 22 x)

/-- SHA-256 big sigma-1. -/
def bigSigma1 (x : Nat) : Nat := Nat.xor (Nat.xor (rotr32 6 x) (rotr32 11 x)) (rotr32 25 x)

/-- SHA-256 small sigma-0. -/
def smallSigma0 (x : Nat) : Nat := Nat.xor (Nat.xor (rotr32 7 x) (rotr32 18 x)) (x >>> 3)

/-- SHA-256 small sigma-1. -/
def smallSigma1 (x : Nat) : Nat := Nat.xor (Nat.xor (rotr32 17 x) (rotr32 19 x)) (x >>> 10)

/-- The 64 SHA-256 round constants (FIPS 180-4). -/
def shaK : List Nat :=
  [1116352408, 1899447441, 3049323471, 3921009573, 961987163, 1508970993, 2453635748, 2870763221,
   3624381080, 310598401, 607225278, 1426881987, 1925078388, 2162078206, 2614888103, 3248222580,
   3835390401, 4022224774, 264347078, 604807628, 770255983, 1249150122, 1555081692, 1996064986,
   2554220882, 2821834349, 2952996808, 3210313671, 3336571891, 3584528711, 113926993, 338241895,
   666307205, 773529912, 1294757372, 1396182291, 1695183700, 1986661051, 2177026350, 2456956037,
   2730485921, 2820302411, 3259730800, 3345764771, 3516065817, 3600352804, 4094571909, 275423344,
   430227734, 506948616, 659060556, 883997877, 958139571, 1322822218, 1537002063, 1747873779,
   1955562222, 2024104815, 2227730452, 2361852424, 2428436474, 2756734187, 3204031479, 3329325298]

/-- The eight SHA-256 working variables. -/
structure Hash8 where
  a : Nat
  b : Nat
  c : Nat
  d : Nat
  e : Nat
  f : Nat
  g : Nat
  h : Nat
deriving DecidableEq

/-- The SHA-256 initial hash value (FIPS 180-4). -/
def shaInit : Hash8 :=
  ⟨1779033703, 3144134277, 1013904242, 2773480762, 1359893119, 2600822924, 528734635, 1541459225⟩

/-- Merkle–Damgård padding: append 0x80, zero bytes up to 56 mod 64, then the
bit length as a big-endian 64-bit quantity. -/
def shaPad (msg : List Nat) : List Nat :=
  let len := msg.length
  let zeros := (119 - len % 64) % 64
  let bits := (8 * len) % 18446744073709551616
  msg ++ [128] ++ List.replicate zeros 0 ++
    [bits >>> 56 % 256, bits >>> 48 % 256, bits >>> 40 % 256, bits >>> 32 % 256,
     bits >>> 24 % 256, bits >>> 16 % 256, bits >>> 8 % 256, bits % 256]

/-- Split a byte sequence into 64-byte blocks (fuel-driven recursion). -/
def toBlocksGo : Nat → List Nat → List (List Nat)
  | 0, _ => []
  | _, [] => []
  | fuel + 1, b :: rest => ((b :: rest).take 64) :: toBlocksGo fuel ((b :: rest).drop 64)

/-- Split a byte sequence into 64-byte blocks. -/
def toBlocks (l : List Nat) : List (List Nat) := toBlocksGo l.length l

/-- Pack big-endian 4-byte groups into 32-bit words. -/
def bytesToWords : List Nat → List Nat
  | b0 :: b1 :: b2 :: b3 :: rest =>
    (b0 * 16777216 + b1 * 65536 + b2 * 256 + b3) :: bytesToWords rest
  | _ => []

/-- Extend a message schedule by `k` further words. -/
def extendSchedule (ws : List Nat) : Nat → List Nat
  | 0 => ws
  | k + 1 =>
    let n := ws.length
    let w := w32 (smallSigma1 (ws.getD (n - 2) 0) + ws.getD (n - 7) 0 +
      smallSigma0 (ws.getD (n - 15) 0) + ws.getD (n - 16) 0)
    extendSchedule (ws ++ [w]) k

/-- The full 64-word message schedule of one block. -/
def schedule (block : List Nat) : List Nat := extendSchedule (bytesToWords block) 48

/-- One SHA-256 compression round. -/
def shaRound (st : Hash8) (k : Nat) (w : Nat) : Hash8 :=
  let t1 := w32 (st.h + bigSigma1 st.e + shaCh st.e st.f st.g + k + w)
  let t2 := w32 (bigSigma0 st.a + shaMaj st.a st.b st.c)
  ⟨w32 (t1 + t2), st.a, st.b, st.c, w32 (st.d + t1), st.e, st.f, st.g⟩

/-- Compress one 64-byte block into the running hash value. -/
def processBlock (st : Hash8) (block : List Nat) : Hash8 :=
  let ws := schedule block
  let z := (shaK.zip ws).foldl (fun s p => shaRound s p.1 p.2) st
  ⟨w32 (st.a + z.a), w32 (st.b + z.b), w32 (st.c + z.c), w32 (st.d + z.d),
   w32 (st.e + z.e), w32 (st.f + z.f), w32 (st.g + z.g), w32 (st.h + z.h)⟩

/-- SHA-256 of a byte sequence, as the eight final hash words. -/
def sha256Words (msg : List Nat) : Hash8 :=
  (toBlocks (shaPad msg)).foldl processBlock shaInit

/-- Lowercase hexadecimal digit character for a nibble. -/
def hexDigit (n : Nat) : Char := Nat.digitChar n

/-- Two lowercase hex characters of one byte. -/
def byteHex (b : Nat) : List Char := [hexDigit (b / 16 % 16), hexDigit (b % 16)]

/-- Eight lowercase hex characters of one 32-bit word, big-endian. -/
def wordHex (w : Nat) : List Char :=
  byteHex (w >>> 24 % 256) ++ byteHex (w >>> 16 % 256) ++ byteHex (w >>> 8 % 256) ++
    byteHex (w % 256)

/-- The 64-character lowercase hex digest of SHA-256. -/
def sha256Hex (msg : List Nat) : List Char :=
  let st := sha256Words msg
  [st.a, st.b, st.c, st.d, st.e, st.f, st.g, st.h].flatMap wordHex

/-- Embedding of `computeChecksum` (checksum.ts lines 15–26) over the file's
text content: normalize CRLF to LF, SHA-256 the UTF-8 bytes, return
`sha256:` followed by the lowercase hex digest. -/
def computeChecksum (content : String) : String :=
  String.mk ("sha256:".data ++ sha256Hex (utf8Encode (normCRLF content.data)))

/-- Does the text contain the three-character sequence CR CR LF? -/
def hasRRN : List Char → Bool
  | a :: b :: c :: rest => (a = '\r' && b = '\r' && c = '\n') || hasRRN (b :: c :: rest)
  | _ => false

/-- Does the text contain a CRLF pair? -/
def hasCRLF : List Char → Bool
  | a :: b :: rest => (a = '\r' && b = '\n') || hasCRLF (b :: rest)
  | _ => false

theorem hasRRN_of_cons {a : Char} {l : List Char} (h : hasRRN (a :: l) = false) :
    hasRRN l = false := by
  match l with
  | [] => rfl
  | [x] => rfl
  | b :: c :: rest => simp [hasRRN] at h; simp [hasRRN, h]

theorem hasCRLF_cons_false {x : Char} {m : List Char}
    (hx : ∀ y, m.head? = some y → ¬(x = '\r' ∧ y = '\n'))
    (hm : hasCRLF m = false) : hasCRLF (x :: m) = false := by
  match m with
  | [] => rfl
  | b :: rest =>
    have hb := hx b rfl
    simp [hasCRLF] at hm ⊢
    constructor
    · intro hxr hbn; exact hb ⟨hxr, hbn⟩
    · exact hm

theorem normCRLF_eq_of_no_crlf {l : List Char} (h : hasCRLF l = false) :
    normCRLF l = l := by
  match l with
  | [] => rfl
  | [a] => rfl
  | a :: b :: rest =>
    simp [hasCRLF] at h
    obtain ⟨h1, h2⟩ := h
    rw [normCRLF]
    rw [if_neg]
    · rw [normCRLF_eq_of_no_crlf (by simp [hasCRLF, h2])]
    · intro hc; exact h1 hc.1 hc.2

theorem hasCRLF_normCRLF {l : List Char} (h : hasRRN l = false) :
    hasCRLF (normCRLF l) = false := by
  match l with
  | [] => rfl
  | [a] => rfl
  | a :: b :: rest =>
    rw [normCRLF]
    by_cases hab : a = '\r' ∧ b = '\n'
    · rw [if_pos hab]
      apply hasCRLF_cons_false
      · intro y _ hy; exact absurd hy.1 (by decide)
      · exact hasCRLF_normCRLF (hasRRN_of_cons (hasRRN_of_cons h))
    · rw [if_neg hab]
      apply hasCRLF_cons_false
      · intro y hy hxy
        obtain ⟨har, hyn⟩ := hxy
        subst har
        subst hyn
        match rest with
        | [] => simp [normCRLF] at hy; exact hab ⟨rfl, hy⟩
        | c :: rest2 =>
          rw [normCRLF] at hy
          by_cases hbc : b = '\r' ∧ c = '\n'
          · rw [if_pos hbc] at hy
            simp [hasRRN, hbc.1, hbc.2] at h
          · rw [if_neg hbc] at hy
            simp at hy
            exact hab ⟨rfl, hy⟩
      · exact hasCRLF_normCRLF (hasRRN_of_cons h)

theorem normCRLF_idem {l : List Char} (h : hasRRN l = false) :
    normCRLF (normCRLF l) = normCRLF l :=
  normCRLF_eq_of_no_crlf (hasCRLF_normCRLF h)

/-- Lowercase-hex character class of the lock-file checksum regex. -/
def isLowerHexDigit (c : Char) : Bool :=
  ('a' ≤ c && c ≤ 'f') || ('0' ≤ c && c ≤ '9')

/-- Embedding of the `checksumSchema` regex of validators/lock-file.ts:
the anchored pattern `sha256:` followed by exactly 64 characters drawn
from the class a–f, 0–9. -/
def checksumPatternOk (s : String) : Bool :=
  "sha256:".data.isPrefixOf s.data && (s.data.drop 7).length == 64 &&
    (s.data.drop 7).all isLowerHexDigit

theorem isLowerHexDigit_hexDigit (n : Nat) : isLowerHexDigit (hexDigit (n % 16)) = true := by
  have h : n % 16 < 16 := Nat.mod_lt n (by omega)
  unfold hexDigit
  interval_cases hn : (n % 16) <;> decide

theorem sha256Hex_length (msg : List Nat) : (sha256Hex msg).length = 64 := by
  simp [sha256Hex, wordHex, byteHex]

theorem sha256Hex_all_hex (msg : List Nat) :
    (sha256Hex msg).all isLowerHexDigit = true := by
  simp [sha256Hex, wordHex, byteHex, isLowerHexDigit_hexDigit]

/-- C1, counterexample: the checksum is not invariant under a CRLF-to-LF
rewriting pass on the content `"\r\r\n"`, where one pass of the rewriting is
not idempotent: the code hashes `"\r\n"` for the original but `"\n"` for the
rewritten content, and the two SHA-256 digests differ. -/
theorem c1_counterexample :
    ¬ (computeChecksum "\r\r\n" = computeChecksum (replaceCRLF "\r\r\n")) := by decide

/-- C1 (amended): the checksum operation is a pure function of the content
(deterministic), and for every content with no occurrence of the
three-character sequence CR CR LF, `computeChecksum c` equals
`computeChecksum` of `c` with every CRLF pair rewritten to LF. -/
theorem c1_checksum_crlf_invariant (c : String) (h : hasRRN c.data = false) :
    computeChecksum c = computeChecksum (replaceCRLF c) := by
  unfold computeChecksum replaceCRLF
  rw [show (String.mk (normCRLF c.data)).data = normCRLF c.data from rfl]
  rw [normCRLF_idem h]

/-- Witness for C1: the amended invariance evaluated at the concrete content
`"a\r\nb"`, which contains a CRLF pair but no CR CR LF sequence. -/
theorem c1_witness :
    hasRRN "a\r\nb".data = false ∧
      computeChecksum "a\r\nb" = computeChecksum (replaceCRLF "a\r\nb") :=
  ⟨by decide, c1_checksum_crlf_invariant "a\r\nb" (by decide)⟩

/-- C9: for every text content, `computeChecksum` returns `sha256:` followed
by exactly 64 lowercase hexadecimal characters, hence satisfies the
lock-file validation pattern of `checksumSchema`. -/
theorem c9_checksum_format (content : String) :
    checksumPatternOk (computeChecksum content) = true := by
  have hpre : "sha256:".data = ['s', 'h', 'a', '2', '5', '6', ':'] := rfl
  unfold checksumPatternOk computeChecksum
  simp only [hpre]
  simp [List.isPrefixOf, sha256Hex_length, sha256Hex_all_hex]

/-! ## Changelog range resolution (packages/cli/src/utils/diff-formatter.ts) -/

/-- Change kinds, types/changelog.ts. -/
inductive ChangeType where
  | added
  | changed
  | deprecated
  | removed
  | fixed
  | security
deriving DecidableEq

/-- One change line of a changelog entry, types/changelog.ts. -/
structure ChangelogChange where
  type : ChangeType
  description : String
deriving DecidableEq

/-- One released version of a component, types/changelog.ts. -/
structure ChangelogEntry where
  version : String
  date : String
  changes : List ChangelogChange
  breaking : Option Bool
deriving DecidableEq

/-- Embedding of `filterEntriesBetweenVersions` (diff-formatter.ts lines
161–178): find the indices of the two versions; if either is missing return
the empty list, otherwise slice the inclusive index range and reverse it to
oldest-first. -/
def filterEntriesBetweenVersions (entries : List ChangelogEntry)
    (fromVersion toVersion : String) : List ChangelogEntry :=
  match entries.findIdx? (fun e => e.version == fromVersion),
        entries.findIdx? (fun e => e.version == toVersion) with
  | some fromIndex, some toIndex =>
    ((entries.drop (min fromIndex toIndex)).take
      (max fromIndex toIndex + 1 - min fromIndex toIndex)).reverse
  | _, _ => []

/-- C2: range resolution — if either version is absent the result is empty;
if both are found at indices i and j the result is exactly the inclusive
slice between min and max of the indices, reversed to oldest-first; the
operation is symmetric in its two version arguments; and on the newest-first
entries for versions 2.0.0, 1.1.0, 1.0.0 the range from 1.0.0 to 2.0.0 comes
back in the order 1.0.0, 1.1.0, 2.0.0. -/
theorem c2_entriesBetween :
    (∀ (entries : List ChangelogEntry) (a b : String),
      (∀ e ∈ entries, e.version ≠ a) → filterEntriesBetweenVersions entries a b = []) ∧
    (∀ (entries : List ChangelogEntry) (a b : String),
      (∀ e ∈ entries, e.version ≠ b) → filterEntriesBetweenVersions entries a b = []) ∧
    (∀ (entries : List ChangelogEntry) (a b : String) (i j : Nat),
      entries.findIdx? (fun e => e.version == a) = some i →
      entries.findIdx? (fun e => e.version == b) = some j →
      filterEntriesBetweenVersions entries a b =
        ((entries.drop (min i j)).take (max i j + 1 - min i j)).reverse) ∧
    (∀ (entries : List ChangelogEntry) (a b : String),
      filterEntriesBetweenVersions entries a b = filterEntriesBetweenVersions entries b a) ∧
    ((filterEntriesBetweenVersions
        [⟨"2.0.0", "2024-03-01T00:00:00Z", [⟨ChangeType.changed, "rework"⟩], some true⟩,
         ⟨"1.1.0", "2024-02-01T00:00:00Z", [⟨ChangeType.added, "feature"⟩], none⟩,
         ⟨"1.0.0", "2024-01-01T00:00:00Z", [⟨ChangeType.added, "initial"⟩], none⟩]
        "1.0.0" "2.0.0").map (fun e => e.version) = ["1.0.0", "1.1.0", "2.0.0"]) := by
  refine ⟨?_, ?_, ?_, ?_, ?_⟩
  · intro entries a b h
    have : entries.findIdx? (fun e => e.version == a) = none := by
      rw [List.findIdx?_eq_none_iff]
      intro e he
      simpa using h e he
    unfold filterEntriesBetweenVersions
    rw [this]
  · intro entries a b h
    have hb : entries.findIdx? (fun e => e.version == b) = none := by
      rw [List.findIdx?_eq_none_iff]
      intro e he
      simpa using h e he
    unfold filterEntriesBetweenVersions
    rw [hb]
    rcases h1 : entries.findIdx? (fun e => e.version == a) with _ | i <;> rw [h1]
  · intro entries a b i j h1 h2
    unfold filterEntriesBetweenVersions
    rw [h1, h2]
  · intro entries a b
    unfold filterEntriesBetweenVersions
    rcases h1 : entries.findIdx? (fun e => e.version == a) with _ | i <;>
      rcases h2 : entries.findIdx? (fun e => e.version == b) with _ | j <;>
      rw [h1, h2] <;> simp [Nat.min_comm, Nat.max_comm]
  · decide

/-- Witness for C2: the slice clause applied at the concrete three-entry
changelog, and the absence clause applied at the empty changelog. -/
theorem c2_witness :
    filterEntriesBetweenVersions
        [⟨"2.0.0", "2024-03-01T00:00:00Z", [⟨ChangeType.changed, "rework"⟩], some true⟩,
         ⟨"1.1.0", "2024-02-01T00:00:00Z", [⟨ChangeType.added, "feature"⟩], none⟩,
         ⟨"1.0.0", "2024-01-01T00:00:00Z", [⟨ChangeType.added, "initial"⟩], none⟩]
        "1.0.0" "2.0.0" =
      [⟨"1.0.0", "2024-01-01T00:00:00Z", [⟨ChangeType.added, "initial"⟩], none⟩,
       ⟨"1.1.0", "2024-02-01T00:00:00Z", [⟨ChangeType.added, "feature"⟩], none⟩,
       ⟨"2.0.0", "2024-03-01T00:00:00Z", [⟨ChangeType.changed, "rework"⟩], some true⟩] ∧
    filterEntriesBetweenVersions [] "1.0.0" "2.0.0" = [] := by
  constructor
  · rw [c2_entriesBetween.2.2.1 _ "1.0.0" "2.0.0" 2 0 (by decide) (by decide)]
    decide
  · exact c2_entriesBetween.1 [] "1.0.0" "2.0.0" (by simp)

/-! ## Three-way merge engine (src/unnamed/part_002, merge utilities) -/

/-- Split a text at every LF character, the JavaScript `content.split("\n")`:
the empty text yields the single empty line. -/
def splitLines : List Char → List (List Char)
  | [] => [[]]
  | c :: rest =>
    match splitLines rest with
    | l :: ls => if c = '\n' then [] :: l :: ls else (c :: l) :: ls
    | [] => [[c]]

/-- Join lines with LF, the JavaScript `lines.join("\n")`. -/
def joinLines : List (List Char) → List Char
  | [] => []
  | [l] => l
  | l :: l2 :: ls => l ++ '\n' :: joinLines (l2 :: ls)

theorem splitLines_ne_nil (l : List Char) : splitLines l ≠ [] := by
  match l with
  | [] => simp [splitLines]
  | c :: rest =>
    rw [splitLines]
    rcases h : splitLines rest with _ | ⟨m, ms⟩
    · simp
    · by_cases hc : c = '\n' <;> simp [hc]

theorem joinLines_splitLines (l : List Char) : joinLines (splitLines l) = l := by
  match l with
  | [] => rfl
  | c :: rest =>
    have ih := joinLines_splitLines rest
    rw [splitLines]
    rcases h : splitLines rest with _ | ⟨m, ms⟩
    · exact absurd h (splitLines_ne_nil rest)
    · rw [h] at ih
      show joinLines (if c = '\n' then [] :: m :: ms else (c :: m) :: ms) = c :: rest
      by_cases hc : c = '\n'
      · rw [if_pos hc, hc]
        show [] ++ '\n' :: joinLines (m :: ms) = '\n' :: rest
        rw [List.nil_append, ih]
      · rw [if_neg hc]
        rcases ms with _ | ⟨m2, ms2⟩
        · show c :: m = c :: rest
          rw [show joinLines [m] = m from rfl] at ih
          rw [ih]
        · show (c :: m) ++ '\n' :: joinLines (m2 :: ms2) = c :: rest
          rw [show joinLines (m :: m2 :: ms2) = m ++ '\n' :: joinLines (m2 :: ms2) from rfl] at ih
          rw [List.cons_append, ih]

/-- Length of the longest common prefix of two lists. -/
def commonPrefixLen {α : Type} [DecidableEq α] : List α → List α → Nat
  | x :: xs, y :: ys => if x = y then commonPrefixLen xs ys + 1 else 0
  | _, _ => 0

theorem commonPrefixLen_le_left {α : Type} [DecidableEq α] (xs ys : List α) :
    commonPrefixLen xs ys ≤ xs.length := by
  match xs, ys with
  | [], _ => simp [commonPrefixLen]
  | x :: xs, [] => simp [commonPrefixLen]
  | x :: xs, y :: ys =>
    rw [commonPrefixLen]
    by_cases h : x = y
    · rw [if_pos h]
      simpa using commonPrefixLen_le_left xs ys
    · rw [if_neg h]; simp

theorem commonPrefixLen_le_right {α : Type} [DecidableEq α] (xs ys : List α) :
    commonPrefixLen xs ys ≤ ys.length := by
  match xs, ys with
  | [], _ => simp [commonPrefixLen]
  | x :: xs, [] => simp [commonPrefixLen]
  | x :: xs, y :: ys =>
    rw [commonPrefixLen]
    by_cases h : x = y
    · rw [if_pos h]
      simpa using commonPrefixLen_le_right xs ys
    · rw [if_neg h]; simp

theorem commonPrefixLen_take_eq {α : Type} [DecidableEq α] (xs ys : List α) :
    xs.take (commonPrefixLen xs ys) = ys.take (commonPrefixLen xs ys) := by
  match xs, ys with
  | [], _ => simp [commonPrefixLen]
  | x :: xs, [] => simp [commonPrefixLen]
  | x :: xs, y :: ys =>
    rw [commonPrefixLen]
    by_cases h : x = y
    · rw [if_pos h]
      simp only [List.take_succ_cons]
      rw [h, commonPrefixLen_take_eq xs ys]
    · rw [if_neg h]; simp

/-- Length of the longest common suffix of two lists. -/
def commonSuffixLen {α : Type} [DecidableEq α] (xs ys : List α) : Nat :=
  commonPrefixLen xs.reverse ys.reverse

theorem commonSuffixLen_le_left {α : Type} [DecidableEq α] (xs ys : List α) :
    commonSuffixLen xs ys ≤ xs.length := by
  have := commonPrefixLen_le_left xs.reverse ys.reverse
  simpa [commonSuffixLen] using this

theorem commonSuffixLen_le_right {α : Type} [DecidableEq α] (xs ys : List α) :
    commonSuffixLen xs ys ≤ ys.length := by
  have := commonPrefixLen_le_right xs.reverse ys.reverse
  simpa [commonSuffixLen] using this

theorem commonSuffixLen_drop_eq {α : Type} [DecidableEq α] (xs ys : List α) :
    xs.drop (xs.length - commonSuffixLen xs ys) =
      ys.drop (ys.length - commonSuffixLen xs ys) := by
  have h := commonPrefixLen_take_eq xs.reverse ys.reverse
  have h2 : (xs.reverse.take (commonSuffixLen xs ys)).reverse =
      (ys.reverse.take (commonSuffixLen xs ys)).reverse := by
    rw [commonSuffixLen, h]
  rw [← List.rtake_eq_reverse_take_reverse, ← List.rtake_eq_reverse_take_reverse] at h2
  simpa [List.rtake] using h2

/-- Modelled from the spec: the repository delegates the line diff to the
external `node-diff3` package, whose source is not part of the repository.
Following the spec's algorithmic contract, a two-way line diff of the base
against one side is taken as the single changed segment left after stripping
the longest common prefix and suffix: `none` when the side is unchanged,
otherwise `some (s, e, repl)` meaning base lines `[s, e)` are replaced by the
lines `repl` of the changed side. -/
def trimDiff (o x : List (List Char)) : Option (Nat × Nat × List (List Char)) :=
  if o = x then none
  else
    let p := commonPrefixLen o x
    let k := commonSuffixLen (o.drop p) (x.drop p)
    some (p, o.length - k, (x.drop p).take (x.length - p - k))

theorem trimDiff_eq_none {o : List (List Char)} : trimDiff o o = none := by
  simp [trimDiff]

theorem trimDiff_spec {o x : List (List Char)} {s e : Nat} {r : List (List Char)}
    (h : trimDiff o x = some (s, e, r)) :
    s ≤ e ∧ e ≤ o.length ∧ o.take s ++ (r ++ o.drop e) = x := by
  unfold trimDiff at h
  by_cases hox : o = x
  · simp [hox] at h
  · rw [if_neg hox] at h
    simp only [Option.some.injEq, Prod.mk.injEq] at h
    obtain ⟨hs, he, hr⟩ := h
    subst hs he hr
    set p := commonPrefixLen o x with hp
    set k := commonSuffixLen (o.drop p) (x.drop p) with hk
    have hpo : p ≤ o.length := commonPrefixLen_le_left o x
    have hpx : p ≤ x.length := commonPrefixLen_le_right o x
    have hko : k ≤ o.length - p := by
      have := commonSuffixLen_le_left (o.drop p) (x.drop p)
      simpa using this
    have hkx : k ≤ x.length - p := by
      have := commonSuffixLen_le_right (o.drop p) (x.drop p)
      simpa using this
    refine ⟨by omega, by omega, ?_⟩
    have hdrop : (o.drop p).drop (o.length - p - k) = (x.drop p).drop (x.length - p - k) := by
      have := commonSuffixLen_drop_eq (o.drop p) (x.drop p)
      simpa [List.length_drop] using this
    have hdo : (o.drop p).drop (o.length - p - k) = o.drop (o.length - k) := by
      rw [List.drop_drop]
      congr 1
      omega
    have hdx : (x.drop p).drop (x.length - p - k) = x.drop (x.length - k) := by
      rw [List.drop_drop]
      congr 1
      omega
    have htake : o.take p = x.take p := commonPrefixLen_take_eq o x
    calc o.take p ++ ((x.drop p).take (x.length - p - k) ++ o.drop (o.length - k))
        = x.take p ++ ((x.drop p).take (x.length - p - k) ++
            (x.drop p).drop (x.length - p - k)) := by
          rw [htake, ← hdo, hdrop]
      _ = x.take p ++ x.drop p := by rw [List.take_append_drop]
      _ = x := List.take_append_drop p x

/-- One region of the three-way merge result: lines merged automatically, or a
conflict carrying the ours-side and theirs-side lines. -/
inductive MergeRegion where
  | ok (lines : List (List Char))
  | conflict (a b : List (List Char))
deriving DecidableEq

/-- Modelled from the spec: the external `node-diff3` `diff3Merge(a, o, b)`
(ours, base, theirs), absent from the repository, per the spec contract —
segments where ours and theirs agree, or where only one side changed relative
to base, merge automatically and are taken verbatim; segments where both
sides changed base differently in an overlapping range become one conflict
region carrying the ours lines and the theirs lines. -/
def diff3Merge (a o b : List (List Char)) : List MergeRegion :=
  match trimDiff o a, trimDiff o b with
  | none, _ => [MergeRegion.ok b]
  | some _, none => [MergeRegion.ok a]
  | some (sa, ea, ra), some (sb, eb, rb) =>
    if (sa < eb ∧ sb < ea) ∨ (sa = sb ∧ ea = eb) then
      let s := min sa sb
      let e := max ea eb
      let aSide := (o.drop s).take (sa - s) ++ ra ++ (o.drop ea).take (e - ea)
      let bSide := (o.drop s).take (sb - s) ++ rb ++ (o.drop eb).take (e - eb)
      if aSide = bSide then
        [MergeRegion.ok (o.take s), MergeRegion.ok aSide, MergeRegion.ok (o.drop e)]
      else
        [MergeRegion.ok (o.take s), MergeRegion.conflict aSide bSide,
         MergeRegion.ok (o.drop e)]
    else if ea ≤ sb then
      [MergeRegion.ok (o.take sa), MergeRegion.ok ra,
       MergeRegion.ok ((o.drop ea).take (sb - ea)), MergeRegion.ok rb,
       MergeRegion.ok (o.drop eb)]
    else
      [MergeRegion.ok (o.take sb), MergeRegion.ok rb,
       MergeRegion.ok ((o.drop eb).take (sa - eb)), MergeRegion.ok ra,
       MergeRegion.ok (o.drop ea)]

/-- Optional conflict-marker labels of `threeWayMerge`. -/
structure MergeLabels where
  ours : Option String
  theirs : Option String

/-- JavaScript falsy-coalescing label resolution `value || defaultValue`:
an absent or empty label string falls back to the default. -/
def resolveLabel (l : Option String) (dflt : String) : String :=
  match l with
  | some s => if s = "" then dflt else s
  | none => dflt

/-- The resolved ours-side label, `labels?.ours || "ours (your changes)"`. -/
def oursLabel (labels : Option MergeLabels) : String :=
  resolveLabel (labels.bind (fun l => l.ours)) "ours (your changes)"

/-- The resolved theirs-side label, `labels?.theirs || "theirs (upstream)"`. -/
def theirsLabel (labels : Option MergeLabels) : String :=
  resolveLabel (labels.bind (fun l => l.theirs)) "theirs (upstream)"

/-- Lines contributed to the output by one merge region: ok lines verbatim, a
conflict as marker header, ours lines, separator, theirs lines, marker
footer (merge.ts lines 54–71). -/
def renderRegion (lOurs lTheirs : List Char) : MergeRegion → List (List Char)
  | MergeRegion.ok lines => lines
  | MergeRegion.conflict va vb =>
    ("<<<<<<< ".data ++ lOurs) :: va ++ "=======".data :: vb ++ [">>>>>>> ".data ++ lTheirs]

/-- Number of conflict regions, the `conflictCount` accumulated by the loop in
`threeWayMerge`. -/
def regionConflicts : List MergeRegion → Nat
  | [] => 0
  | MergeRegion.ok _ :: rs => regionConflicts rs
  | MergeRegion.conflict _ _ :: rs => regionConflicts rs + 1

/-- Result of `threeWayMerge` (merge.ts lines 8–23). -/
structure MergeResult where
  success : Bool
  content : String
  conflictCount : Nat
deriving DecidableEq

/-- The merged output lines of `threeWayMerge`. -/
def mergeLines (base ours theirs : String) (labels : Option MergeLabels) :
    List (List Char) :=
  (diff3Merge (splitLines ours.data) (splitLines base.data)
      (splitLines theirs.data)).flatMap
    (renderRegion (oursLabel labels).data (theirsLabel labels).data)

/-- Embedding of `threeWayMerge` (merge.ts lines 34–78): split the three
inputs into lines, run the three-way merge, render regions (conflicts with
markers), join with LF; success means zero conflicts. -/
def threeWayMerge (base ours theirs : String) (labels : Option MergeLabels) :
    MergeResult :=
  let regions := diff3Merge (splitLines ours.data) (splitLines base.data)
    (splitLines theirs.data)
  { success := regionConflicts regions == 0
    content := String.mk (joinLines (mergeLines base ours theirs labels))
    conflictCount := regionConflicts regions }

/-- Rebuilding a string from its own character data. -/
theorem strMk_data (s : String) : String.mk s.data = s := rfl

theorem diff3Merge_self (o a : List (List Char)) (lo lt : List Char) :
    (diff3Merge a o a).flatMap (renderRegion lo lt) = a ∧
      regionConflicts (diff3Merge a o a) = 0 := by
  unfold diff3Merge
  rcases h : trimDiff o a with _ | ⟨s, e, r⟩
  · constructor <;> simp [renderRegion, regionConflicts]
  · obtain ⟨hse, heo, hdecomp⟩ := trimDiff_spec h
    dsimp only
    rw [if_pos (Or.inr ⟨rfl, rfl⟩)]
    simp only [Nat.min_self, Nat.max_self, Nat.sub_self, List.take_zero, List.nil_append,
      List.append_nil, if_true]
    constructor
    · simp only [List.flatMap_cons, List.flatMap_nil, renderRegion, List.append_nil]
      rw [← List.append_assoc]
      rw [← List.append_assoc] at hdecomp
      exact hdecomp
    · simp [regionConflicts]

/-- C3: when ours equals base (only theirs changed), the merge returns theirs
verbatim with no conflicts and success. -/
theorem c3_merge_only_theirs (base theirs : String) (labels : Option MergeLabels) :
    threeWayMerge base base theirs labels =
      { success := true, content := theirs, conflictCount := 0 } := by
  unfold threeWayMerge mergeLines diff3Merge
  rw [trimDiff_eq_none]
  simp [renderRegion, regionConflicts, joinLines_splitLines, strMk_data]

/-- C6: merging with ours equal to theirs succeeds and returns that common
content, whatever base is. -/
theorem c6_merge_idempotent (base theirs : String) (labels : Option MergeLabels) :
    threeWayMerge base theirs theirs labels =
      { success := true, content := theirs, conflictCount := 0 } := by
  obtain ⟨h1, h2⟩ := diff3Merge_self (splitLines base.data) (splitLines theirs.data)
    (oursLabel labels).data (theirsLabel labels).data
  unfold threeWayMerge mergeLines
  dsimp only
  rw [h1, h2]
  simp [joinLines_splitLines, strMk_data]

/-- C4: end-to-end scenario B — base "a b c", ours edits line 2, theirs edits
line 3; the merge succeeds with no conflicts and both edits preserved. -/
theorem c4_nonoverlapping_edits :
    threeWayMerge "a\nb\nc" "a\nB\nc" "a\nb\nC" none =
      { success := true, content := "a\nB\nC", conflictCount := 0 } := by decide

theorem flatMap_infix_of_mem {α β : Type} (f : α → List β) {x : α} {l : List α}
    (h : x ∈ l) : f x <:+: l.flatMap f := by
  induction l with
  | nil => simp at h
  | cons y ys ih =>
    rcases List.mem_cons.mp h with h | h
    · subst h
      rw [List.flatMap_cons]
      exact (List.prefix_append _ _).isInfix
    · obtain ⟨s, t, hst⟩ := ih h
      exact ⟨f y ++ s, t, by rw [List.flatMap_cons, ← hst]; simp⟩

/-- C7, counterexample: with no labels supplied, a conflict region's header
line is `<<<<<<< ours (your changes)`, not `<<<<<<< your changes` as the
claimed default would produce. -/
theorem c7_counterexample :
    (threeWayMerge "a" "x" "y" none).conflictCount = 1 ∧
      "<<<<<<< ours (your changes)".data ∈ mergeLines "a" "x" "y" none ∧
      ¬ ("<<<<<<< your changes".data ∈ mergeLines "a" "x" "y" none) := by decide

/-- C7 (amended): when the caller supplies no labels, each conflict region is
emitted as `<<<<<<< ` followed by the default ours-label
`ours (your changes)`, then the ours lines, `=======`, the theirs lines, and
`>>>>>>> ` followed by the default theirs-label `theirs (upstream)` — the
whole block occurring contiguously in the merged output lines. -/
theorem c7_conflict_block (base ours theirs : String) (va vb : List (List Char))
    (h : MergeRegion.conflict va vb ∈
      diff3Merge (splitLines ours.data) (splitLines base.data)
        (splitLines theirs.data)) :
    ("<<<<<<< ours (your changes)".data :: va ++ "=======".data :: vb ++
        [">>>>>>> theirs (upstream)".data]) <:+: mergeLines base ours theirs none := by
  have hinf := flatMap_infix_of_mem
    (renderRegion (oursLabel none).data (theirsLabel none).data) h
  have hh : "<<<<<<< ".data ++ (oursLabel none).data =
      "<<<<<<< ours (your changes)".data := rfl
  have hf : ">>>>>>> ".data ++ (theirsLabel none).data =
      ">>>>>>> theirs (upstream)".data := rfl
  rw [renderRegion, hh, hf] at hinf
  exact hinf

/-- Witness for C7: the conflict block with the default labels at a concrete
conflicting merge. -/
theorem c7_witness :
    ("<<<<<<< ours (your changes)".data :: [['x']] ++ "=======".data :: [['y']] ++
        [">>>>>>> theirs (upstream)".data]) <:+: mergeLines "a" "x" "y" none :=
  c7_conflict_block "a" "x" "y" [['x']] [['y']] (by decide)

/-- Do the first seven characters exist and all equal `m`? -/
def startsSeven (m : Char) : List Char → Bool
  | c1 :: c2 :: c3 :: c4 :: c5 :: c6 :: c7 :: _ =>
    c1 = m && c2 = m && c3 = m && c4 = m && c5 = m && c6 = m && c7 = m
  | _ => false

/-- Count of the non-overlapping, left-to-right matches of the seven-character
run `mmmmmmm` in a text — the semantics of the JavaScript global regex match
used by `countConflicts` (merge.ts lines 100–103). -/
def countMarker (m : Char) : List Char → Nat
  | c1 :: c2 :: c3 :: c4 :: c5 :: c6 :: c7 :: rest =>
    if startsSeven m (c1 :: c2 :: c3 :: c4 :: c5 :: c6 :: c7 :: rest) then
      countMarker m rest + 1
    else countMarker m (c2 :: c3 :: c4 :: c5 :: c6 :: c7 :: rest)
  | _ => 0

/-- Embedding of `countConflicts` (merge.ts lines 100–103): the number of
matches of `/<<<<<<</g` in the content. -/
def countConflicts (content : String) : Nat := countMarker '<' content.data

theorem countMarker_step_false {m d : Char} {t : List Char}
    (h : startsSeven m (d :: t) = false) :
    countMarker m (d :: t) = countMarker m t := by
  match t with
  | t1 :: t2 :: t3 :: t4 :: t5 :: t6 :: tr =>
    rw [countMarker, if_neg (by simp [h])]
  | [] => rfl
  | [t1] => rfl
  | [t1, t2] => rfl
  | [t1, t2, t3] => rfl
  | [t1, t2, t3, t4] => rfl
  | [t1, t2, t3, t4, t5] => rfl

theorem countMarker_step_true {m d : Char} {t : List Char}
    (h : startsSeven m (d :: t) = true) :
    countMarker m (d :: t) = countMarker m ((d :: t).drop 7) + 1 := by
  match t with
  | t1 :: t2 :: t3 :: t4 :: t5 :: t6 :: tr =>
    rw [countMarker, if_pos (by simp [h])]
    rfl
  | [] => simp [startsSeven] at h
  | [t1] => simp [startsSeven] at h
  | [t1, t2] => simp [startsSeven] at h
  | [t1, t2, t3] => simp [startsSeven] at h
  | [t1, t2, t3, t4] => simp [startsSeven] at h
  | [t1, t2, t3, t4, t5] => simp [startsSeven] at h

theorem startsSeven_cons_ne {m d : Char} (t : List Char) (hd : d ≠ m) :
    startsSeven m (d :: t) = false := by
  match t with
  | t1 :: t2 :: t3 :: t4 :: t5 :: t6 :: tr => simp [startsSeven, hd]
  | [] => rfl
  | [t1] => rfl
  | [t1, t2] => rfl
  | [t1, t2, t3] => rfl
  | [t1, t2, t3, t4] => rfl
  | [t1, t2, t3, t4, t5] => rfl

theorem countMarker_cons_ne {m d : Char} (t : List Char) (hd : d ≠ m) :
    countMarker m (d :: t) = countMarker m t :=
  countMarker_step_false (startsSeven_cons_ne t hd)

theorem countMarker_append_left_zero {m : Char} {u : List Char} (v : List Char)
    (hu : ∀ c ∈ u, c ≠ m) : countMarker m (u ++ v) = countMarker m v := by
  induction u with
  | nil => rfl
  | cons c cs ih =>
    rw [List.cons_append, countMarker_cons_ne _ (hu c (List.mem_cons_self c cs))]
    exact ih (fun x hx => hu x (List.mem_cons_of_mem c hx))

theorem startsSeven_iff_take {m : Char} {l : List Char} :
    startsSeven m l = true ↔ l.take 7 = List.replicate 7 m := by
  match l with
  | c1 :: c2 :: c3 :: c4 :: c5 :: c6 :: c7 :: r =>
    simp [startsSeven, List.replicate, and_assoc]
  | [] => simp [startsSeven, List.replicate]
  | [t1] => simp [startsSeven, List.replicate]
  | [t1, t2] => simp [startsSeven, List.replicate]
  | [t1, t2, t3] => simp [startsSeven, List.replicate]
  | [t1, t2, t3, t4] => simp [startsSeven, List.replicate]
  | [t1, t2, t3, t4, t5] => simp [startsSeven, List.replicate]
  | [t1, t2, t3, t4, t5, t6] => simp [startsSeven, List.replicate]

theorem startsSeven_length {m : Char} {l : List Char}
    (h : startsSeven m l = true) : 7 ≤ l.length := by
  have ht := startsSeven_iff_take.mp h
  have := congrArg List.length ht
  simp at this
  omega

theorem countMarker_step_true7 {m : Char} {l : List Char}
    (h : startsSeven m l = true) :
    countMarker m l = countMarker m (l.drop 7) + 1 := by
  match l with
  | d :: t => exact countMarker_step_true h
  | [] => simp [startsSeven] at h

theorem startsSeven_append {m : Char} {x : List Char} (z : List Char)
    (h : startsSeven m x = true) : startsSeven m (x ++ z) = true := by
  have h7 := startsSeven_length h
  rw [startsSeven_iff_take] at h ⊢
  rw [List.take_append_eq_append_take, Nat.sub_eq_zero_of_le h7, List.take_zero,
    List.append_nil, h]

theorem countMarker_append (m : Char) (hm : m ≠ '\n') (x y : List Char) :
    countMarker m (x ++ '\n' :: y) = countMarker m x + countMarker m y := by
  by_cases h : startsSeven m (x ++ '\n' :: y) = true
  · have h7 : 7 ≤ x.length := by
      by_contra hlen
      push_neg at hlen
      have hx : (x ++ '\n' :: y).take 7 = List.replicate 7 m :=
        startsSeven_iff_take.mp h
      rw [List.take_append_eq_append_take,
        List.take_of_length_le (by omega)] at hx
      have hmem : '\n' ∈ List.replicate 7 m := by
        rw [← hx]
        refine List.mem_append_right x ?_
        rcases hk : 7 - x.length with _ | k
        · omega
        · rw [List.take_succ_cons]
          exact List.mem_cons_self _ _
      exact hm (List.eq_of_mem_replicate hmem).symm
    have hsx : startsSeven m x = true := by
      rw [startsSeven_iff_take] at h ⊢
      rw [List.take_append_eq_append_take, Nat.sub_eq_zero_of_le h7, List.take_zero,
        List.append_nil] at h
      exact h
    rw [countMarker_step_true7 h, countMarker_step_true7 hsx]
    rw [List.drop_append_eq_append_drop, Nat.sub_eq_zero_of_le h7, List.drop_zero]
    rw [countMarker_append m hm (x.drop 7) y]
    omega
  · match x with
    | [] =>
      rw [List.nil_append,
        countMarker_cons_ne _ (fun hx => hm hx.symm)]
      simp [countMarker]
    | d :: xt =>
      rw [List.cons_append,
        countMarker_step_false (by simpa using h),
        countMarker_step_false (m := m) (d := d) (t := xt) ?_,
        countMarker_append m hm xt y]
      by_contra hsf
      simp only [Bool.not_eq_false] at hsf
      have := startsSeven_append ('\n' :: y) hsf
      rw [List.cons_append] at this
      simp [this] at h
termination_by x.length
decreasing_by
  · simp [List.length_drop]; omega
  · simp

theorem countMarker_joinLines (m : Char) (hm : m ≠ '\n') (lines : List (List Char)) :
    countMarker m (joinLines lines) = (lines.map (countMarker m)).sum := by
  match lines with
  | [] => rfl
  | [l] => simp [joinLines]
  | l :: l2 :: ls =>
    rw [joinLines, countMarker_append m hm, countMarker_joinLines m hm (l2 :: ls)]
    simp

theorem countMarker_line_zero {m : Char} (hm : m ≠ '\n') {s : List Char}
    (h : countMarker m s = 0) {l : List Char} (hl : l ∈ splitLines s) :
    countMarker m l = 0 := by
  have hj := countMarker_joinLines m hm (splitLines s)
  rw [joinLines_splitLines, h] at hj
  exact List.sum_eq_zero_iff.mp hj.symm _ (List.mem_map_of_mem _ hl)

/-- The input lines carried by a region: the merged lines of an ok region,
both sides of a conflict region. -/
def regionSource : MergeRegion → List (List Char)
  | MergeRegion.ok u => u
  | MergeRegion.conflict va vb => va ++ vb

theorem trimDiff_repl_sub {o x : List (List Char)} {s e : Nat} {r : List (List Char)}
    (h : trimDiff o x = some (s, e, r)) : ∀ l ∈ r, l ∈ x := by
  unfold trimDiff at h
  by_cases hox : o = x
  · simp [hox] at h
  · rw [if_neg hox] at h
    simp only [Option.some.injEq, Prod.mk.injEq] at h
    obtain ⟨_, _, hr⟩ := h
    subst hr
    intro l hl
    exact List.mem_of_mem_drop (List.mem_of_mem_take hl)

theorem diff3Merge_region_lines (a o b : List (List Char)) :
    ∀ r ∈ diff3Merge a o b, ∀ l ∈ regionSource r, l ∈ a ∨ l ∈ o ∨ l ∈ b := by
  unfold diff3Merge
  have slice : ∀ (i j : Nat) (l : List Char), l ∈ (o.drop i).take j → l ∈ o :=
    fun i j l hl => List.mem_of_mem_drop (List.mem_of_mem_take hl)
  rcases ha : trimDiff o a with _ | ⟨⟨sa, ea, ra⟩⟩
  · intro r hr l hl
    simp at hr
    subst hr
    exact Or.inr (Or.inr (by simpa [regionSource] using hl))
  · rcases hb : trimDiff o b with _ | ⟨⟨sb, eb, rb⟩⟩
    · intro r hr l hl
      simp at hr
      subst hr
      exact Or.inl (by simpa [regionSource] using hl)
    · have hra := trimDiff_repl_sub ha
      have hrb := trimDiff_repl_sub hb
      dsimp only
      by_cases hc : (sa < eb ∧ sb < ea) ∨ (sa = sb ∧ ea = eb)
      · rw [if_pos hc]
        by_cases heq :
            (o.drop (min sa sb)).take (sa - min sa sb) ++ ra ++
                (o.drop ea).take (max ea eb - ea) =
              (o.drop (min sa sb)).take (sb - min sa sb) ++ rb ++
                (o.drop eb).take (max ea eb - eb)
        · rw [if_pos heq]
          intro r hr l hl
          simp only [List.mem_cons, List.not_mem_nil, or_false] at hr
          rcases hr with hr | hr | hr <;> subst hr <;> simp only [regionSource] at hl
          · exact Or.inr (Or.inl (List.mem_of_mem_take hl))
          · rcases List.mem_append.mp hl with hl | hl
            · rcases List.mem_append.mp hl with hl | hl
              · exact Or.inr (Or.inl (slice _ _ _ hl))
              · exact Or.inl (hra _ hl)
            · exact Or.inr (Or.inl (slice _ _ _ hl))
          · exact Or.inr (Or.inl (List.mem_of_mem_drop hl))
        · rw [if_neg heq]
          intro r hr l hl
          simp only [List.mem_cons, List.not_mem_nil, or_false] at hr
          rcases hr with hr | hr | hr <;> subst hr <;> simp only [regionSource] at hl
          · exact Or.inr (Or.inl (List.mem_of_mem_take hl))
          · rcases List.mem_append.mp hl with hl | hl
            · rcases List.mem_append.mp hl with hl | hl
              · rcases List.mem_append.mp hl with hl | hl
                · exact Or.inr (Or.inl (slice _ _ _ hl))
                · exact Or.inl (hra _ hl)
              · exact Or.inr (Or.inl (slice _ _ _ hl))
            · rcases List.mem_append.mp hl with hl | hl
              · rcases List.mem_append.mp hl with hl | hl
                · exact Or.inr (Or.inl (slice _ _ _ hl))
                · exact Or.inr (Or.inr (hrb _ hl))
              · exact Or.inr (Or.inl (slice _ _ _ hl))
          · exact Or.inr (Or.inl (List.mem_of_mem_drop hl))
      · rw [if_neg hc]
        by_cases hseq : ea ≤ sb
        · rw [if_pos hseq]
          intro r hr l hl
          simp only [List.mem_cons, List.not_mem_nil, or_false] at hr
          rcases hr with hr | hr | hr | hr | hr <;> subst hr <;>
            simp only [regionSource] at hl
          · exact Or.inr (Or.inl (List.mem_of_mem_take hl))
          · exact Or.inl (hra _ hl)
          · exact Or.inr (Or.inl (slice _ _ _ hl))
          · exact Or.inr (Or.inr (hrb _ hl))
          · exact Or.inr (Or.inl (List.mem_of_mem_drop hl))
        · rw [if_neg hseq]
          intro r hr l hl
          simp only [List.mem_cons, List.not_mem_nil, or_false] at hr
          rcases hr with hr | hr | hr | hr | hr <;> subst hr <;>
            simp only [regionSource] at hl
          · exact Or.inr (Or.inl (List.mem_of_mem_take hl))
          · exact Or.inr (Or.inr (hrb _ hl))
          · exact Or.inr (Or.inl (slice _ _ _ hl))
          · exact Or.inl (hra _ hl)
          · exact Or.inr (Or.inl (List.mem_of_mem_drop hl))

theorem map_sum_zero {m : Char} {u : List (List Char)}
    (hu : ∀ l ∈ u, countMarker m l = 0) : (u.map (countMarker m)).sum = 0 :=
  List.sum_eq_zero_iff.mpr (fun x hx => by
    obtain ⟨l, hl, hx⟩ := List.mem_map.mp hx
    rw [← hx]
    exact hu l hl)

theorem sum_renderRegion (m : Char) (lo lt : List Char) (regions : List MergeRegion)
    (hzero : ∀ r ∈ regions, ∀ l ∈ regionSource r, countMarker m l = 0) :
    ((regions.flatMap (renderRegion lo lt)).map (countMarker m)).sum =
      regionConflicts regions *
        (countMarker m ("<<<<<<< ".data ++ lo) + countMarker m "=======".data +
          countMarker m (">>>>>>> ".data ++ lt)) := by
  induction regions with
  | nil => simp [regionConflicts]
  | cons r rs ih =>
    have hrs := ih (fun r hr => hzero r (List.mem_cons_of_mem _ hr))
    have hr0 := hzero r (List.mem_cons_self _ _)
    rw [List.flatMap_cons, List.map_append, List.sum_append, hrs]
    cases r with
    | ok u =>
      rw [show renderRegion lo lt (MergeRegion.ok u) = u from rfl]
      have hu : ∀ l ∈ u, countMarker m l = 0 := fun l hl => hr0 l hl
      rw [map_sum_zero hu]
      simp [regionConflicts]
    | conflict va vb =>
      have hva : ∀ l ∈ va, countMarker m l = 0 :=
        fun l hl => hr0 l (List.mem_append_left _ hl)
      have hvb : ∀ l ∈ vb, countMarker m l = 0 :=
        fun l hl => hr0 l (List.mem_append_right _ hl)
      rw [show renderRegion lo lt (MergeRegion.conflict va vb) =
        ("<<<<<<< ".data ++ lo) :: va ++ "=======".data :: vb ++
          [">>>>>>> ".data ++ lt] from rfl]
      rw [show regionConflicts (MergeRegion.conflict va vb :: rs) =
        regionConflicts rs + 1 from rfl]
      simp only [List.map_cons, List.map_append, List.sum_cons, List.sum_append,
        List.map_nil, List.sum_nil]
      rw [map_sum_zero hva, map_sum_zero hvb]
      ring

theorem countMarker_marker_line (m : Char) (hm : m ≠ ' ') (u : List Char)
    (hu : countMarker m u = 0) :
    countMarker m (List.replicate 7 m ++ ' ' :: u) = 1 := by
  have hs : startsSeven m (List.replicate 7 m ++ ' ' :: u) = true := by
    rw [startsSeven_iff_take, List.take_append_eq_append_take]
    simp
  rw [countMarker_step_true7 hs, List.drop_append_eq_append_drop]
  simp only [List.drop_replicate, List.length_replicate, Nat.sub_self, List.drop_zero,
    List.replicate_zero, List.nil_append]
  rw [countMarker_cons_ne _ (fun hx => hm hx.symm), hu]

/-- C5, counterexample: when a line of `ours` itself contains the marker
string, the content holds more `<<<<<<<` occurrences than `conflictCount`. -/
theorem c5_counterexample :
    (threeWayMerge "a" "x\n<<<<<<<" "y" none).conflictCount = 1 ∧
      countConflicts (threeWayMerge "a" "x\n<<<<<<<" "y" none).content = 2 := by decide

/-- C5 (amended): whenever none of the three inputs and neither resolved
label contains a seven-fold `<` or `>` marker run, the merged content holds
exactly `conflictCount` occurrences of `<<<<<<<` (as counted by
`countConflicts`) and exactly `conflictCount` occurrences of `>>>>>>>` —
in particular this holds whenever `conflictCount > 0` for such inputs. -/
theorem c5_marker_count (base ours theirs : String) (labels : Option MergeLabels)
    (hb1 : countMarker '<' base.data = 0) (ho1 : countMarker '<' ours.data = 0)
    (ht1 : countMarker '<' theirs.data = 0)
    (hb2 : countMarker '>' base.data = 0) (ho2 : countMarker '>' ours.data = 0)
    (ht2 : countMarker '>' theirs.data = 0)
    (hlo1 : countMarker '<' (oursLabel labels).data = 0)
    (hlo2 : countMarker '>' (oursLabel labels).data = 0)
    (hlt1 : countMarker '<' (theirsLabel labels).data = 0)
    (hlt2 : countMarker '>' (theirsLabel labels).data = 0) :
    countConflicts (threeWayMerge base ours theirs labels).content =
        (threeWayMerge base ours theirs labels).conflictCount ∧
      countMarker '>' (threeWayMerge base ours theirs labels).content.data =
        (threeWayMerge base ours theirs labels).conflictCount := by
  have hmem := diff3Merge_region_lines (splitLines ours.data) (splitLines base.data)
    (splitLines theirs.data)
  have hzero : ∀ m : Char, m ≠ '\n' → countMarker m base.data = 0 →
      countMarker m ours.data = 0 → countMarker m theirs.data = 0 →
      ∀ r ∈ diff3Merge (splitLines ours.data) (splitLines base.data)
        (splitLines theirs.data), ∀ l ∈ regionSource r, countMarker m l = 0 := by
    intro m hm hb ho ht r hr l hl
    rcases hmem r hr l hl with h | h | h
    · exact countMarker_line_zero hm ho h
    · exact countMarker_line_zero hm hb h
    · exact countMarker_line_zero hm ht h
  have hdata : (threeWayMerge base ours theirs labels).content.data =
      joinLines (mergeLines base ours theirs labels) := rfl
  have hcc : (threeWayMerge base ours theirs labels).conflictCount =
      regionConflicts (diff3Merge (splitLines ours.data) (splitLines base.data)
        (splitLines theirs.data)) := rfl
  have hlt7 : "<<<<<<< ".data ++ (oursLabel labels).data =
      List.replicate 7 '<' ++ ' ' :: (oursLabel labels).data := rfl
  have hgt7 : ">>>>>>> ".data ++ (theirsLabel labels).data =
      List.replicate 7 '>' ++ ' ' :: (theirsLabel labels).data := rfl
  constructor
  · rw [show countConflicts (threeWayMerge base ours theirs labels).content =
      countMarker '<' (threeWayMerge base ours theirs labels).content.data from rfl]
    rw [hdata, countMarker_joinLines '<' (by decide) _, hcc]
    rw [mergeLines, sum_renderRegion '<' _ _ _
      (hzero '<' (by decide) hb1 ho1 ht1)]
    rw [hlt7, countMarker_marker_line '<' (by decide) _ hlo1]
    rw [countMarker_append_left_zero _ (by decide) (u := ">>>>>>> ".data), hlt1]
    rw [show countMarker '<' "=======".data = 0 from by decide]
    omega
  · rw [hdata, countMarker_joinLines '>' (by decide) _, hcc]
    rw [mergeLines, sum_renderRegion '>' _ _ _
      (hzero '>' (by decide) hb2 ho2 ht2)]
    rw [hgt7, countMarker_marker_line '>' (by decide) _ hlt2]
    rw [countMarker_append_left_zero _ (by decide) (u := "<<<<<<< ".data), hlo2]
    rw [show countMarker '>' "=======".data = 0 from by decide]
    omega

/-- Witness for C5: the amended count at a concrete one-conflict merge with
marker-free inputs and default labels. -/
theorem c5_witness :
    countConflicts (threeWayMerge "a" "x" "y" none).content =
        (threeWayMerge "a" "x" "y" none).conflictCount ∧
      countMarker '>' (threeWayMerge "a" "x" "y" none).content.data =
        (threeWayMerge "a" "x" "y" none).conflictCount :=
  c5_marker_count "a" "x" "y" none (by decide) (by decide) (by decide) (by decide)
    (by decide) (by decide) (by decide) (by decide) (by decide) (by decide)

/-! ## Lock file store (packages/cli/src/utils/lock-file.ts) -/

/-- One tracked component's record, `componentLockEntrySchema` of
validators/lock-file.ts. -/
structure ComponentLockEntry where
  installedVersion : String
  installedAt : String
  checksum : String
  registryUrl : Option String
deriving DecidableEq

/-- The lock file, `lockFileSchema` of validators/lock-file.ts; the
`components` JSON object is modelled as its ordered key-value pairs, and the
optional JSON `$schema` member is the `schemaRef` field. -/
structure LockFile where
  schemaRef : Option String
  version : String
  components : List (String × ComponentLockEntry)
deriving DecidableEq

/-- JavaScript property read `obj[k]` on an object held as ordered key-value
pairs. -/
def objGet (m : List (String × ComponentLockEntry)) (k : String) :
    Option ComponentLockEntry :=
  match m with
  | [] => none
  | (k2, v) :: rest => if k2 = k then some v else objGet rest k

/-- JavaScript membership test `k in obj`. -/
def objHas (m : List (String × ComponentLockEntry)) (k : String) : Bool :=
  match m with
  | [] => false
  | (k2, _) :: rest => k2 = k || objHas rest k

/-- JavaScript spread update `{ ...obj, [k]: v }`: an existing key keeps its
position and takes the new value, a new key is appended last. -/
def objSet (m : List (String × ComponentLockEntry)) (k : String)
    (v : ComponentLockEntry) : List (String × ComponentLockEntry) :=
  if objHas m k then m.map (fun p => if p.1 = k then (k, v) else p)
  else m ++ [(k, v)]

/-- JavaScript rest-destructuring removal `const { [k]: _, ...rest } = obj`. -/
def objDelete (m : List (String × ComponentLockEntry)) (k : String) :
    List (String × ComponentLockEntry) :=
  m.filter (fun p => !(p.1 == k))

/-- A JavaScript object value is always truthy; `entry || null` keeps it. -/
def jsTruthy (_ : ComponentLockEntry) : Bool := true

/-- Embedding of `updateComponentEntry` (lock-file.ts lines 85–97). -/
def updateComponentEntry (lockFile : LockFile) (componentName : String)
    (entry : ComponentLockEntry) : LockFile :=
  { lockFile with components := objSet lockFile.components componentName entry }

/-- Embedding of `removeComponentEntry` (lock-file.ts lines 106–116). -/
def removeComponentEntry (lockFile : LockFile) (componentName : String) :
    LockFile :=
  { lockFile with components := objDelete lockFile.components componentName }

/-- Embedding of `isComponentTracked` (lock-file.ts lines 125–130):
`componentName in lockFile.components`. -/
def isComponentTracked (lockFile : LockFile) (componentName : String) : Bool :=
  objHas lockFile.components componentName

/-- Embedding of `getComponentEntry` (lock-file.ts lines 139–144):
`lockFile.components[componentName] || null`, where the stored entry is an
object and hence never falsy. -/
def getComponentEntry (lockFile : LockFile) (componentName : String) :
    Option ComponentLockEntry :=
  match objGet lockFile.components componentName with
  | some e => if jsTruthy e then some e else none
  | none => none

theorem objGet_append (m m2 : List (String × ComponentLockEntry)) (k : String) :
    objGet (m ++ m2) k = match objGet m k with
      | some v => some v
      | none => objGet m2 k := by
  induction m with
  | nil => rfl
  | cons p rest ih =>
    obtain ⟨k2, v⟩ := p
    rw [List.cons_append, objGet, objGet]
    by_cases h : k2 = k
    · rw [if_pos h, if_pos h]
    · rw [if_neg h, if_neg h, ih]

theorem objGet_eq_none_of_not_has {m : List (String × ComponentLockEntry)}
    {k : String} (h : objHas m k = false) : objGet m k = none := by
  induction m with
  | nil => rfl
  | cons p rest ih =>
    obtain ⟨k2, v⟩ := p
    rw [objHas] at h
    simp only [Bool.or_eq_false_iff, decide_eq_false_iff_not] at h
    rw [objGet, if_neg h.1]
    exact ih h.2

theorem objGet_map_update_self {m : List (String × ComponentLockEntry)}
    {k : String} (v : ComponentLockEntry) (h : objHas m k = true) :
    objGet (m.map (fun p => if p.1 = k then (k, v) else p)) k = some v := by
  induction m with
  | nil => simp [objHas] at h
  | cons p rest ih =>
    obtain ⟨k2, v2⟩ := p
    simp only [List.map_cons]
    by_cases h2 : k2 = k
    · rw [if_pos h2, objGet, if_pos rfl]
    · rw [if_neg h2, objGet, if_neg h2]
      rw [objHas] at h
      simp only [Bool.or_eq_true, decide_eq_true_eq] at h
      exact ih (h.resolve_left h2)

theorem objGet_map_update_ne {m : List (String × ComponentLockEntry)}
    {k k2 : String} (v : ComponentLockEntry) (hne : k2 ≠ k) :
    objGet (m.map (fun p => if p.1 = k then (k, v) else p)) k2 = objGet m k2 := by
  induction m with
  | nil => rfl
  | cons p rest ih =>
    obtain ⟨k3, v3⟩ := p
    simp only [List.map_cons]
    by_cases h3 : k3 = k
    · rw [if_pos h3, objGet, objGet, if_neg (fun hk => hne hk.symm),
        if_neg (fun hk => hne ((hk.symm.trans h3))), ih]
    · rw [if_neg h3, objGet, objGet]
      by_cases h4 : k3 = k2
      · rw [if_pos h4, if_pos h4]
      · rw [if_neg h4, if_neg h4, ih]

theorem objGet_objSet_self (m : List (String × ComponentLockEntry)) (k : String)
    (v : ComponentLockEntry) : objGet (objSet m k v) k = some v := by
  unfold objSet
  by_cases h : objHas m k = true
  · rw [if_pos h]
    exact objGet_map_update_self v h
  · rw [if_neg h, objGet_append,
      objGet_eq_none_of_not_has (Bool.not_eq_true _ ▸ h)]
    rw [objGet, if_pos rfl]

theorem objGet_objSet_ne (m : List (String × ComponentLockEntry)) {k k2 : String}
    (v : ComponentLockEntry) (hne : k2 ≠ k) :
    objGet (objSet m k v) k2 = objGet m k2 := by
  unfold objSet
  by_cases h : objHas m k = true
  · rw [if_pos h]
    exact objGet_map_update_ne v hne
  · rw [if_neg h, objGet_append]
    rcases hg : objGet m k2 with _ | v2
    · rw [objGet, if_neg (fun hk => hne hk.symm), objGet]
    · rfl

theorem objDelete_cons (k2 : String) (v : ComponentLockEntry)
    (rest : List (String × ComponentLockEntry)) (k : String) :
    objDelete ((k2, v) :: rest) k =
      if k2 = k then objDelete rest k else (k2, v) :: objDelete rest k := by
  by_cases h : k2 = k <;> simp [objDelete, List.filter_cons, h]

theorem objHas_objDelete_self (m : List (String × ComponentLockEntry)) (k : String) :
    objHas (objDelete m k) k = false := by
  induction m with
  | nil => rfl
  | cons p rest ih =>
    obtain ⟨k2, v⟩ := p
    rw [objDelete_cons]
    by_cases h : k2 = k
    · rw [if_pos h]
      exact ih
    · rw [if_neg h]
      simp [objHas, h, ih]

theorem objGet_objDelete_ne (m : List (String × ComponentLockEntry)) {k k2 : String}
    (hne : k2 ≠ k) : objGet (objDelete m k) k2 = objGet m k2 := by
  induction m with
  | nil => rfl
  | cons p rest ih =>
    obtain ⟨k3, v⟩ := p
    rw [objDelete_cons]
    by_cases h : k3 = k
    · rw [if_pos h]
      have hk32 : ¬ (k3 = k2) := fun hk => hne (hk.symm.trans h)
      simp [objGet, hk32, ih]
    · rw [if_neg h]
      simp [objGet, ih]

theorem objDelete_of_not_has {m : List (String × ComponentLockEntry)} {k : String}
    (h : objHas m k = false) : objDelete m k = m := by
  induction m with
  | nil => rfl
  | cons p rest ih =>
    obtain ⟨k2, v⟩ := p
    rw [objHas] at h
    simp only [Bool.or_eq_false_iff, decide_eq_false_iff_not] at h
    rw [objDelete_cons, if_neg h.1, ih h.2]

theorem objHas_iff_objGet (m : List (String × ComponentLockEntry)) (k : String) :
    objHas m k = true ↔ objGet m k ≠ none := by
  induction m with
  | nil => simp [objHas, objGet]
  | cons p rest ih =>
    obtain ⟨k2, v⟩ := p
    by_cases h : k2 = k
    · simp [objHas, objGet, h]
    · simp only [objHas, objGet, if_neg h, Bool.or_eq_true, decide_eq_true_eq, h, false_or]
      exact ih

/-- C8: the lock-store upsert and removal are pure frame-preserving updates —
upsert makes the entry for the name the given record while the version field
and every other name's entry are unchanged; removal untracks the name while
the version field and every other name's entry are unchanged, and removing an
absent name leaves the components mapping equal to the input. -/
theorem c8_lock_store_ops :
    (∀ (lf : LockFile) (name : String) (entry : ComponentLockEntry),
      getComponentEntry (updateComponentEntry lf name entry) name = some entry) ∧
    (∀ (lf : LockFile) (name : String) (entry : ComponentLockEntry),
      (updateComponentEntry lf name entry).version = lf.version) ∧
    (∀ (lf : LockFile) (name k : String) (entry : ComponentLockEntry), k ≠ name →
      getComponentEntry (updateComponentEntry lf name entry) k =
        getComponentEntry lf k) ∧
    (∀ (lf : LockFile) (name : String),
      isComponentTracked (removeComponentEntry lf name) name = false) ∧
    (∀ (lf : LockFile) (name : String),
      (removeComponentEntry lf name).version = lf.version) ∧
    (∀ (lf : LockFile) (name k : String), k ≠ name →
      getComponentEntry (removeComponentEntry lf name) k = getComponentEntry lf k) ∧
    (∀ (lf : LockFile) (name : String), isComponentTracked lf name = false →
      (removeComponentEntry lf name).components = lf.components) := by
  refine ⟨?_, ?_, ?_, ?_, ?_, ?_, ?_⟩
  · intro lf name entry
    simp only [getComponentEntry, updateComponentEntry]
    rw [objGet_objSet_self]
    simp [jsTruthy]
  · intro lf name entry
    rfl
  · intro lf name k entry hk
    simp only [getComponentEntry, updateComponentEntry]
    rw [objGet_objSet_ne _ _ hk]
  · intro lf name
    exact objHas_objDelete_self _ _
  · intro lf name
    rfl
  · intro lf name k hk
    simp only [getComponentEntry, removeComponentEntry]
    rw [objGet_objDelete_ne _ hk]
  · intro lf name h
    exact objDelete_of_not_has h

/-- Witness for C8: the frame conditions applied at a concrete empty lock
store, component name button and other key card. -/
theorem c8_witness :
    (getComponentEntry (updateComponentEntry ⟨none, "1.0", []⟩ "button"
        ⟨"1.0.0", "2024-01-01T00:00:00Z", "sha256:aa", none⟩) "card" =
      getComponentEntry ⟨none, "1.0", []⟩ "card") ∧
    (getComponentEntry (removeComponentEntry ⟨none, "1.0", []⟩ "button") "card" =
      getComponentEntry ⟨none, "1.0", []⟩ "card") ∧
    (removeComponentEntry (⟨none, "1.0", []⟩ : LockFile) "button").components = [] :=
  ⟨c8_lock_store_ops.2.2.1 _ "button" "card" _ (by decide),
   c8_lock_store_ops.2.2.2.2.2.1 _ "button" "card" (by decide),
   c8_lock_store_ops.2.2.2.2.2.2 _ "button" (by decide)⟩

/-- C10: a component is tracked exactly when its entry lookup is non-null,
although `isComponentTracked` tests key membership with `in` while
`getComponentEntry` reads the value with a falsy-coalescing `|| null`. -/
theorem c10_tracked_iff_entry (lf : LockFile) (name : String) :
    isComponentTracked lf name = true ↔ getComponentEntry lf name ≠ none := by
  rw [isComponentTracked, objHas_iff_objGet]
  unfold getComponentEntry
  rcases h : objGet lf.components name with _ | e
  · simp
  · simp [jsTruthy]
